import Mathlib

/-!
Verification of the segment-bookkeeping core of `pylal/grbsummary.py`
(pycbc-pylal).  The code manipulates half-open integer-endpoint time
segments via the `glue.segments` library; we embed the relevant library
semantics (segments, coalesced segment lists, find/contract/containment)
and transcribe the module's functions over that embedding.  Python
integers are modelled by `Int`; Python floor division `//` by `Int.fdiv`
(they agree for arbitrary-precision ints), and `%` with a positive
modulus by `Int.emod`.
-/

namespace GRB

/-- A `glue.segments.segment`: a pair of endpoints.  The glue constructor
sorts its two arguments, which we mirror with `mkSeg`; raw `Seg.mk` is
only used where the endpoints are already ordered. -/
structure Seg where
  lo : Int
  hi : Int
deriving DecidableEq

/-- The glue `segment` constructor: endpoints are stored sorted. -/
def mkSeg (a b : Int) : Seg := if a ≤ b then ⟨a, b⟩ else ⟨b, a⟩

/-- `abs(segment)` in glue: the length `hi - lo`. -/
def segAbs (s : Seg) : Int := s.hi - s.lo

/-- glue `segment.__contains__` for a segment item:
`outer[0] <= inner[0] and inner[1] <= outer[1]`. -/
def segIn (inner outer : Seg) : Bool :=
  decide (outer.lo ≤ inner.lo) && decide (inner.hi ≤ outer.hi)

/-- glue `segment.contract(x)`: `segment(lo + x, hi - x)` (constructor
re-sorts the endpoints). -/
def contract (s : Seg) (x : Int) : Seg := mkSeg (s.lo + x) (s.hi - x)

/-- glue `segmentlist.find(item)` followed by indexing: the first segment
of the list that wholly contains `item` (the Python code raises
`ValueError`, i.e. `none`, when no such segment exists). -/
def findSeg (l : List Seg) (item : Seg) : Option Seg :=
  l.find? (fun s => segIn item s)

/-! ### `compute_offsource_segment` (grbsummary.py lines 82-141) -/

/-- `analyzable[analyzable.find(on_source)].contract(padding_time)`,
with the `ValueError` of a failed `find` mapped to `none`. -/
def find_super (analyzable : List Seg) (on_source : Seg) (padding_time : Int) :
    Option Seg :=
  (findSeg analyzable on_source).map (fun s => contract s padding_time)

/-- `nplus = (super_seg[1] - on_source[1]) // quantization_time`. -/
def nat_nplus (super_seg on_source : Seg) : Int :=
  (super_seg.hi - on_source.hi).fdiv (segAbs on_source)

/-- `nminus = (on_source[0] - super_seg[0]) // quantization_time`. -/
def nat_nminus (super_seg on_source : Seg) : Int :=
  (on_source.lo - super_seg.lo).fdiv (segAbs on_source)

/-- The `max_trials` truncation block (lines 120-132). -/
def truncate_counts (max_trials : Option Int) (nplus nminus : Int) : Int × Int :=
  match max_trials with
  | none => (nplus, nminus)
  | some mt =>
    if nplus + nminus > mt then
      let half_max := mt.fdiv 2
      if nplus < half_max then
        (nplus, min (mt - nplus) nminus)
      else if nminus < half_max then
        (min (mt - nminus) nplus, nminus)
      else
        (half_max, half_max)
    else (nplus, nminus)

/-- The `symmetric` block (lines 134-135). -/
def sym_counts (symmetric : Bool) (c : Int × Int) : Int × Int :=
  if symmetric then (min c.1 c.2, min c.1 c.2) else c

/-- The trial counts `(nplus, nminus)` as they stand after the
`max_trials` truncation and the `symmetric` adjustment; `none` when the
function bails out before computing them (failed `find`, or the on-source
segment is not contained in the contracted super segment). -/
def offsource_counts (analyzable : List Seg) (on_source : Seg)
    (padding_time : Int) (max_trials : Option Int) (symmetric : Bool) :
    Option (Int × Int) :=
  match find_super analyzable on_source padding_time with
  | none => none
  | some super_seg =>
    if segIn on_source super_seg then
      some (sym_counts symmetric
        (truncate_counts max_trials
          (nat_nplus super_seg on_source) (nat_nminus super_seg on_source)))
    else none

/-- `compute_offsource_segment` (lines 82-141).  `none` models Python's
`return None`.  A zero-length `on_source` makes the Python code raise
`ZeroDivisionError`; theorems therefore assume `0 < segAbs on_source`
(Lean's `fdiv _ 0 = 0` totalizes that case). -/
def compute_offsource_segment (analyzable : List Seg) (on_source : Seg)
    (padding_time : Int) (min_trials max_trials : Option Int)
    (symmetric : Bool) : Option Seg :=
  match offsource_counts analyzable on_source padding_time max_trials symmetric with
  | none => none
  | some c =>
    let check := match min_trials with
      | some m => decide (c.1 + c.2 < m)
      | none => false
    if check then none
    else
      some (mkSeg (on_source.lo - c.2 * segAbs on_source - padding_time)
                  (on_source.hi + c.1 * segAbs on_source + padding_time))

/-! ### glue segment-list arithmetic

`glue.segments.segmentlist` set arithmetic is defined (and documented to
be reliable) on coalesced lists: sorted, disjoint, non-degenerate
segments, each list denoting a finite union of half-open intervals.  We
model `coalesce` after glue's implementation (sort, merge whenever the
next segment starts no later than the current end, drop zero-length
segments) and the set operations `|`, `-`, `&` by their point-set
semantics, producing coalesced results. -/

/-- Sort key used by glue's `coalesce` (tuple order on the endpoints). -/
def segLeB (a b : Seg) : Bool :=
  decide (a.lo < b.lo) || (decide (a.lo = b.lo) && decide (a.hi ≤ b.hi))

def insertSeg (s : Seg) : List Seg → List Seg
  | [] => [s]
  | t :: ts => if segLeB s t then s :: t :: ts else t :: insertSeg s ts

def sortSegs : List Seg → List Seg
  | [] => []
  | s :: ss => insertSeg s (sortSegs ss)

/-- The merge loop of glue's `coalesce`: absorb following segments while
they start no later than the current end, and drop zero-length output. -/
def coalesceLoop (cur : Seg) : List Seg → List Seg
  | [] => if segAbs cur = 0 then [] else [cur]
  | s :: rest =>
    if s.lo ≤ cur.hi then coalesceLoop ⟨cur.lo, max cur.hi s.hi⟩ rest
    else if segAbs cur = 0 then coalesceLoop s rest
    else cur :: coalesceLoop s rest

/-- glue `segmentlist.coalesce`. -/
def coalesce (l : List Seg) : List Seg :=
  match sortSegs l with
  | [] => []
  | s :: rest => coalesceLoop s rest

/-- Intersection of two single segments, `none` when empty. -/
def segInter (a b : Seg) : Option Seg :=
  if max a.lo b.lo < min a.hi b.hi then some ⟨max a.lo b.lo, min a.hi b.hi⟩
  else none

/-- The (up to two) nonempty pieces of segment `a` not covered by `b`. -/
def segSub (a b : Seg) : List Seg :=
  (if a.lo < min b.lo a.hi then [⟨a.lo, min b.lo a.hi⟩] else []) ++
  (if max b.hi a.lo < a.hi then [⟨max b.hi a.lo, a.hi⟩] else [])

def segSubList (a : Seg) (bs : List Seg) : List Seg :=
  bs.foldl (fun acc b => acc.flatMap (fun s => segSub s b)) [a]

/-- glue `segmentlist.__sub__` (point-set difference, coalesced). -/
def listDiff (a b : List Seg) : List Seg :=
  coalesce (a.flatMap (fun s => segSubList s b))

/-- glue `segmentlist.__or__` (point-set union, coalesced). -/
def listUnion (a b : List Seg) : List Seg :=
  coalesce (a ++ b)

/-- glue `segmentlist.__and__` (point-set intersection, coalesced). -/
def listInter (a b : List Seg) : List Seg :=
  coalesce (a.flatMap (fun s => b.filterMap (fun t => segInter s t)))

/-! ### `compute_masked_segments` (grbsummary.py lines 54-80) -/

/-- `compute_masked_segments`.  Returns the pair
`(on_source_mask, off_source_mask)`.  Note that on line 76 the quantized
replacement of a gap `s` is `segment(s[0], s[0] + abs(s)//quantization_time)` —
the end point is the start plus the NUMBER of whole quanta, not the start
plus that number times the quantization width. -/
def compute_masked_segments (analyzable_seglist : List Seg) (on_source_segment : Seg)
    (veto_seglist : List Seg) (quantization_time : Option Int) :
    List Seg × List Seg :=
  let analyzable := coalesce analyzable_seglist
  let off_source_segs := listDiff analyzable [on_source_segment]
  let on_source_mask := listUnion off_source_segs veto_seglist
  let off_source_mask := listUnion [on_source_segment] veto_seglist
  match quantization_time with
  | none => (on_source_mask, off_source_mask)
  | some qt =>
    let off_source_quantized :=
      (listDiff off_source_segs off_source_mask).map
        (fun s => mkSeg s.lo (s.lo + (segAbs s).fdiv qt))
    (on_source_mask, listDiff analyzable off_source_quantized)

/-! ### `multi_ifo_compute_offsource_segment` (grbsummary.py lines 143-178) -/

/-- `sensitivity_dict` (line 42).  In Python, an IFO absent from the dict
raises `KeyError` inside the sort comparator; the model totalizes unknown
IFOs with rank 6, which no theorem relies on. -/
def sensitivity_dict (ifo : String) : Int :=
  if ifo = "H1" then 1
  else if ifo = "L1" then 2
  else if ifo = "H2" then 3
  else if ifo = "V1" then 4
  else if ifo = "G1" then 5
  else 6

/-- Stable insertion step for `list.sort(sensitivity_cmp)` (Python's sort
is stable; ranks of the known IFOs are distinct anyway). -/
def insertBySens (x : String) : List String → List String
  | [] => [x]
  | y :: ys =>
    if sensitivity_dict y < sensitivity_dict x then y :: insertBySens x ys
    else x :: y :: ys

def sortBySens : List String → List String
  | [] => []
  | x :: xs => insertBySens x (sortBySens xs)

/-- Lexicographic (code-point) comparison of character lists: Python's
`<` on strings. -/
def lexLt : List Char → List Char → Bool
  | [], [] => false
  | [], _ :: _ => true
  | _ :: _, [] => false
  | a :: as, b :: bs => if a < b then true else if b < a then false else lexLt as bs

def strLtB (a b : String) : Bool := lexLt a.data b.data

/-- Stable insertion step for `the_ifo_combo.sort()` (lexicographic
string order). -/
def insertLex (x : String) : List String → List String
  | [] => [x]
  | y :: ys => if strLtB y x then y :: insertLex x ys else x :: y :: ys

def sortLex : List String → List String
  | [] => []
  | x :: xs => insertLex x (sortLex xs)

/-- `glue.iterutils.choices(vals, n)`: every way of choosing `n` of the
elements of `vals` keeping their relative order, enumerated in the order
of `itertools.combinations`. -/
def choices : List String → Nat → List (List String)
  | _, 0 => [[]]
  | [], _ + 1 => []
  | x :: xs, n + 1 => (choices xs n).map (fun c => x :: c) ++ choices xs (n + 1)

/-- Lines 149-156: keep, for each IFO, the singleton list holding the
segment its list's `find` locates around the on-source segment; IFOs
whose `find` raises `ValueError` are dropped. -/
def sieve_dict (d : List (String × List Seg)) (on_source : Seg) :
    List (String × List Seg) :=
  d.filterMap (fun pr => (findSeg pr.2 on_source).map (fun s => (pr.1, [s])))

def dict_lookup (d : List (String × List Seg)) (k : String) : List Seg :=
  match d.find? (fun pr => pr.1 == k) with
  | some pr => pr.2
  | none => []

/-- glue `segmentlistdict.intersection(keys)`: the `&`-fold of the
segment lists attached to the given keys (empty for no keys). -/
def dict_intersection (d : List (String × List Seg)) : List String → List Seg
  | [] => []
  | k :: ks => ks.foldl (fun acc k2 => listInter acc (dict_lookup d k2)) (dict_lookup d k)

/-- `xrange(len(analyzable_ifos), 1, -1)`: subset sizes in decreasing
order, stopping above 1. -/
def sizesDesc (n : Nat) : List Nat := (List.range' 2 (n - 1)).reverse

/-- Lines 162-164: the chained `choices` calls. -/
def test_combos (ifos : List String) : List (List String) :=
  (sizesDesc ifos.length).flatMap (fun n => choices ifos n)

/-- One iteration body: `compute_offsource_segment` on the intersection
of the combo's segment lists, all kwargs passed through. -/
def attempt_combo (nd : List (String × List Seg)) (on_source : Seg)
    (p : Int) (mn mx : Option Int) (symmetric : Bool) (combo : List String) :
    Option Seg :=
  compute_offsource_segment (dict_intersection nd combo) on_source p mn mx symmetric

/-- The `for ifo_combo in test_combos: ... break` loop (lines 166-176),
including the final in-place sort of the successful combo. -/
def combo_loop (nd : List (String × List Seg)) (on_source : Seg)
    (p : Int) (mn mx : Option Int) (symmetric : Bool) :
    List (List String) → Option Seg × List String
  | [] => (none, [])
  | c :: rest =>
    match attempt_combo nd on_source p mn mx symmetric c with
    | some seg => (some seg, sortLex c)
    | none => combo_loop nd on_source p mn mx symmetric rest

/-- `multi_ifo_compute_offsource_segment` (lines 143-178). -/
def multi_ifo_compute_offsource_segment (analyzable_dict : List (String × List Seg))
    (on_source : Seg) (p : Int) (mn mx : Option Int) (symmetric : Bool) :
    Option Seg × List String :=
  let nd := sieve_dict analyzable_dict on_source
  let ifos := sortBySens (nd.map Prod.fst)
  combo_loop nd on_source p mn mx symmetric (test_combos ifos)

/-- Subset sizes "from the number of analyzable detectors down to 2",
written directly from the spec's words. -/
def spec_sizes : Nat → List Nat
  | 0 => []
  | 1 => []
  | n + 2 => (n + 2) :: spec_sizes (n + 1)

/-- §4.2 of the spec, stated in its own words: sieve the per-detector
lists down to the segment containing the on-source segment, order the
detectors by the fixed sensitivity ranking, enumerate subset sizes from
all detectors down to 2 (within a size, in ranking order), take the FIRST
combination whose intersection admits an off-source segment, and return
that segment with the combination sorted for determinism; if no subset of
any size ≥ 2 succeeds, return no result with an empty detector list. -/
def spec_multi_ifo (analyzable_dict : List (String × List Seg))
    (on_source : Seg) (p : Int) (mn mx : Option Int) (symmetric : Bool) :
    Option Seg × List String :=
  let nd := sieve_dict analyzable_dict on_source
  let ifos := sortBySens (nd.map Prod.fst)
  let combos := (spec_sizes ifos.length).flatMap (fun n => choices ifos n)
  match combos.find? (fun c => (attempt_combo nd on_source p mn mx symmetric c).isSome) with
  | some c => (attempt_combo nd on_source p mn mx symmetric c, sortLex c)
  | none => (none, [])

/-! ### Helper lemmas about the trial-count pipeline -/

theorem truncate_counts_nonneg (mx : Option Int) (np nm : Int)
    (hmx : 0 ≤ mx.getD 0) (hnp : 0 ≤ np) (hnm : 0 ≤ nm) :
    0 ≤ (truncate_counts mx np nm).1 ∧ 0 ≤ (truncate_counts mx np nm).2 := by
  cases mx with
  | none => exact ⟨hnp, hnm⟩
  | some mt =>
    simp only [Option.getD] at hmx
    simp only [truncate_counts]
    rw [Int.fdiv_eq_ediv mt (by norm_num)]
    split
    · split
      · refine ⟨hnp, ?_⟩
        omega
      · split
        · refine ⟨?_, hnm⟩
          omega
        · omega
    · exact ⟨hnp, hnm⟩

theorem truncate_counts_le (mt np nm : Int) (h : mt < np + nm) :
    (truncate_counts (some mt) np nm).1 + (truncate_counts (some mt) np nm).2 ≤ mt := by
  simp only [truncate_counts]
  rw [Int.fdiv_eq_ediv mt (by norm_num)]
  split
  · split
    · omega
    · split
      · omega
      · omega
  · omega

theorem sym_counts_le (symmetric : Bool) (c : Int × Int) :
    (sym_counts symmetric c).1 + (sym_counts symmetric c).2 ≤ c.1 + c.2 ∨
      sym_counts symmetric c = c := by
  cases symmetric with
  | false => exact Or.inr rfl
  | true =>
    left
    simp only [sym_counts, if_pos]
    omega

theorem sym_counts_nonneg (symmetric : Bool) (c : Int × Int)
    (h1 : 0 ≤ c.1) (h2 : 0 ≤ c.2) :
    0 ≤ (sym_counts symmetric c).1 ∧ 0 ≤ (sym_counts symmetric c).2 := by
  cases symmetric <;> simp only [sym_counts, if_pos, if_neg, Bool.false_eq_true,
    not_false_eq_true, if_true] <;> omega

theorem counts_nonneg (analyzable : List Seg) (on_source : Seg)
    (p : Int) (mx : Option Int) (symmetric : Bool) (c : Int × Int)
    (hq : 0 < segAbs on_source) (hmx : 0 ≤ mx.getD 0)
    (h : offsource_counts analyzable on_source p mx symmetric = some c) :
    0 ≤ c.1 ∧ 0 ≤ c.2 := by
  unfold offsource_counts at h
  cases hfs : find_super analyzable on_source p with
  | none => rw [hfs] at h; exact absurd h (by simp)
  | some super_seg =>
    rw [hfs] at h
    dsimp only at h
    by_cases hin : segIn on_source super_seg = true
    · rw [if_pos hin] at h
      have hc : c = sym_counts symmetric
          (truncate_counts mx (nat_nplus super_seg on_source)
            (nat_nminus super_seg on_source)) := by
        exact (Option.some_inj.mp h).symm
      have hsup : super_seg.lo ≤ on_source.lo ∧ on_source.hi ≤ super_seg.hi := by
        simp only [segIn, Bool.and_eq_true, decide_eq_true_eq] at hin
        exact hin
      have hnp : 0 ≤ nat_nplus super_seg on_source := by
        unfold nat_nplus
        rw [Int.fdiv_eq_ediv _ (le_of_lt hq)]
        exact Int.ediv_nonneg (by omega) (le_of_lt hq)
      have hnm : 0 ≤ nat_nminus super_seg on_source := by
        unfold nat_nminus
        rw [Int.fdiv_eq_ediv _ (le_of_lt hq)]
        exact Int.ediv_nonneg (by omega) (le_of_lt hq)
      have ht := truncate_counts_nonneg mx _ _ hmx hnp hnm
      rw [hc]
      exact sym_counts_nonneg symmetric _ ht.1 ht.2
    · rw [if_neg hin] at h
      exact absurd h (by simp)

theorem offsource_counts_sym_pair (analyzable : List Seg) (on_source : Seg)
    (p : Int) (mx : Option Int) (c : Int × Int)
    (h : offsource_counts analyzable on_source p mx true = some c) :
    c.1 = c.2 := by
  unfold offsource_counts at h
  cases hfs : find_super analyzable on_source p with
  | none => rw [hfs] at h; exact absurd h (by simp)
  | some super_seg =>
    rw [hfs] at h
    dsimp only at h
    by_cases hin : segIn on_source super_seg = true
    · rw [if_pos hin] at h
      have hc := (Option.some_inj.mp h).symm
      rw [hc]
      rfl
    · rw [if_neg hin] at h
      exact absurd h (by simp)

/-- The segment built on line 140-141 from final counts `c`, under
nonnegative counts and padding, needs no endpoint re-sorting. -/
theorem result_seg_eq (on_source : Seg) (p : Int) (c : Int × Int)
    (hq : 0 < segAbs on_source) (hp : 0 ≤ p) (h1 : 0 ≤ c.1) (h2 : 0 ≤ c.2) :
    mkSeg (on_source.lo - c.2 * segAbs on_source - p)
          (on_source.hi + c.1 * segAbs on_source + p)
      = ⟨on_source.lo - c.2 * segAbs on_source - p,
         on_source.hi + c.1 * segAbs on_source + p⟩ := by
  have m1 : 0 ≤ c.1 * segAbs on_source := mul_nonneg h1 (le_of_lt hq)
  have m2 : 0 ≤ c.2 * segAbs on_source := mul_nonneg h2 (le_of_lt hq)
  have hlo : on_source.lo < on_source.hi := by
    unfold segAbs at hq; omega
  unfold mkSeg
  rw [if_pos (by omega)]

/-! ### Claim theorems for `compute_offsource_segment` -/

/-- C1, counterexample to the claim as stated: with
`analyzable = [[90,210)]`, `on_source = [100,200)` (which is contained in
a segment of the analyzable list) and `padding_time = -50`, the result is
the non-`None` segment `[150,150)`, which does not contain the on-source
segment. -/
theorem C1_counterexample :
    segIn (Seg.mk 100 200) (Seg.mk 90 210) = true ∧
    compute_offsource_segment [Seg.mk 90 210] (Seg.mk 100 200) (-50) none none true
      = some (Seg.mk 150 150) ∧
    segIn (Seg.mk 100 200) (Seg.mk 150 150) = false := by decide

/-- C1 (amended: `padding_time` and any `max_trials` cap nonnegative, and
the on-source segment of positive length so the Python code does not
raise `ZeroDivisionError`): whenever `compute_offsource_segment` returns
a segment, that segment contains the on-source segment and its length is
`(trials + 1) * |on_source| + 2 * padding_time` for the nonnegative trial
counts the function computed — i.e. padding is subtracted during the
containment test but added back on each side of the returned extent, and
apart from that padding the length is an exact integer multiple of the
on-source length, the multiple minus one being the trial count. -/
theorem C1_offsource_contains_and_multiple
    (analyzable : List Seg) (on_source seg : Seg) (p : Int)
    (mn mx : Option Int) (symmetric : Bool)
    (hq : 0 < segAbs on_source) (hp : 0 ≤ p) (hmx : 0 ≤ mx.getD 0)
    (hres : compute_offsource_segment analyzable on_source p mn mx symmetric
              = some seg) :
    segIn on_source seg = true ∧
    ∃ np nm : Int,
      offsource_counts analyzable on_source p mx symmetric = some (np, nm) ∧
      0 ≤ np ∧ 0 ≤ nm ∧
      segAbs seg = (np + nm + 1) * segAbs on_source + 2 * p := by
  unfold compute_offsource_segment at hres
  cases hoc : offsource_counts analyzable on_source p mx symmetric with
  | none => rw [hoc] at hres; exact absurd hres (by simp)
  | some c =>
    rw [hoc] at hres
    dsimp only at hres
    have hcn := counts_nonneg analyzable on_source p mx symmetric c hq hmx hoc
    split at hres
    · exact absurd hres (by simp)
    · have hseg := (Option.some_inj.mp hres).symm
      rw [result_seg_eq on_source p c hq hp hcn.1 hcn.2] at hseg
      have m1 : 0 ≤ c.1 * segAbs on_source := mul_nonneg hcn.1 (le_of_lt hq)
      have m2 : 0 ≤ c.2 * segAbs on_source := mul_nonneg hcn.2 (le_of_lt hq)
      constructor
      · rw [hseg]
        simp only [segIn, Bool.and_eq_true, decide_eq_true_eq]
        constructor <;> omega
      · refine ⟨c.1, c.2, by rw [← hoc], hcn.1, hcn.2, ?_⟩
        rw [hseg]
        simp only [segAbs]
        ring

theorem C1_witness :
    segIn (Seg.mk 100 200) (Seg.mk 93 607) = true ∧
    ∃ np nm : Int,
      offsource_counts [Seg.mk 0 1000] (Seg.mk 100 200) 7 (some 4) false
        = some (np, nm) ∧
      0 ≤ np ∧ 0 ≤ nm ∧
      segAbs (Seg.mk 93 607) = (np + nm + 1) * segAbs (Seg.mk 100 200) + 2 * 7 :=
  C1_offsource_contains_and_multiple [Seg.mk 0 1000] (Seg.mk 100 200)
    (Seg.mk 93 607) 7 none (some 4) false (by decide) (by decide) (by decide)
    (by decide)

/-- C2: when `max_trials = mt` is supplied and the natural trial counts
exceed it, the truncation block behaves exactly as claimed: a side
already below half the cap is kept and the other side is cut so the total
equals the cap exactly; if both sides are at least half the cap, both are
set to exactly half (floor); and the final (post-`symmetric`) total trial
count never exceeds the cap. -/
theorem C2_max_trials_truncation
    (analyzable : List Seg) (on_source super_seg : Seg) (p mt : Int)
    (symmetric : Bool)
    (hsup : find_super analyzable on_source p = some super_seg)
    (hin : segIn on_source super_seg = true)
    (hgt : nat_nplus super_seg on_source + nat_nminus super_seg on_source > mt) :
    truncate_counts (some mt) (nat_nplus super_seg on_source)
        (nat_nminus super_seg on_source)
      = (if nat_nplus super_seg on_source < mt.fdiv 2 then
           (nat_nplus super_seg on_source, mt - nat_nplus super_seg on_source)
         else if nat_nminus super_seg on_source < mt.fdiv 2 then
           (mt - nat_nminus super_seg on_source, nat_nminus super_seg on_source)
         else (mt.fdiv 2, mt.fdiv 2)) ∧
    (offsource_counts analyzable on_source p (some mt) symmetric).elim True
      (fun c => c.1 + c.2 ≤ mt) := by
  constructor
  · unfold truncate_counts
    dsimp only
    rw [if_pos hgt]
    by_cases h1 : nat_nplus super_seg on_source < mt.fdiv 2
    · rw [if_pos h1, if_pos h1]
      have : min (mt - nat_nplus super_seg on_source)
          (nat_nminus super_seg on_source) = mt - nat_nplus super_seg on_source :=
        min_eq_left (by omega)
      rw [this]
    · rw [if_neg h1, if_neg h1]
      by_cases h2 : nat_nminus super_seg on_source < mt.fdiv 2
      · rw [if_pos h2, if_pos h2]
        have : min (mt - nat_nminus super_seg on_source)
            (nat_nplus super_seg on_source) = mt - nat_nminus super_seg on_source :=
          min_eq_left (by omega)
        rw [this]
      · rw [if_neg h2, if_neg h2]
  · unfold offsource_counts
    rw [hsup]
    dsimp only
    rw [if_pos hin]
    simp only [Option.elim]
    have hle := truncate_counts_le mt (nat_nplus super_seg on_source)
      (nat_nminus super_seg on_source) hgt
    rcases sym_counts_le symmetric (truncate_counts (some mt)
        (nat_nplus super_seg on_source) (nat_nminus super_seg on_source)) with h | h
    · omega
    · rw [h]; exact hle

theorem C2_witness :
    truncate_counts (some 4) (nat_nplus (Seg.mk 0 1000) (Seg.mk 100 200))
        (nat_nminus (Seg.mk 0 1000) (Seg.mk 100 200))
      = (if nat_nplus (Seg.mk 0 1000) (Seg.mk 100 200) < (4 : Int).fdiv 2 then
           (nat_nplus (Seg.mk 0 1000) (Seg.mk 100 200),
            4 - nat_nplus (Seg.mk 0 1000) (Seg.mk 100 200))
         else if nat_nminus (Seg.mk 0 1000) (Seg.mk 100 200) < (4 : Int).fdiv 2 then
           (4 - nat_nminus (Seg.mk 0 1000) (Seg.mk 100 200),
            nat_nminus (Seg.mk 0 1000) (Seg.mk 100 200))
         else ((4 : Int).fdiv 2, (4 : Int).fdiv 2)) ∧
    (offsource_counts [Seg.mk 0 1000] (Seg.mk 100 200) 0 (some 4) false).elim True
      (fun c => c.1 + c.2 ≤ 4) :=
  C2_max_trials_truncation [Seg.mk 0 1000] (Seg.mk 100 200) (Seg.mk 0 1000) 0 4
    false (by decide) (by decide) (by decide)

/-- C3: with `symmetric = true` (the default), the final counts are the
minimum of the two (possibly `max_trials`-truncated) side counts on both
sides, and any returned segment has exactly equal left and right margins
around the on-source segment. -/
theorem C3_symmetric_margins
    (analyzable : List Seg) (on_source seg : Seg) (p : Int) (mn mx : Option Int)
    (hres : compute_offsource_segment analyzable on_source p mn mx true
              = some seg) :
    on_source.lo - seg.lo = seg.hi - on_source.hi ∧
    offsource_counts analyzable on_source p mx true
      = (offsource_counts analyzable on_source p mx false).map
          (fun c => (min c.1 c.2, min c.1 c.2)) := by
  constructor
  · unfold compute_offsource_segment at hres
    cases hoc : offsource_counts analyzable on_source p mx true with
    | none => rw [hoc] at hres; exact absurd hres (by simp)
    | some c =>
      rw [hoc] at hres
      dsimp only at hres
      split at hres
      · exact absurd hres (by simp)
      · have hseg := (Option.some_inj.mp hres).symm
        have hcc := offsource_counts_sym_pair analyzable on_source p mx c hoc
        rw [hcc] at hseg
        rw [hseg]
        unfold mkSeg
        by_cases hab : on_source.lo - c.2 * segAbs on_source - p
            ≤ on_source.hi + c.2 * segAbs on_source + p
        · rw [if_pos hab]
          dsimp only
          ring
        · rw [if_neg hab]
          dsimp only
          ring
  · unfold offsource_counts
    cases hfs : find_super analyzable on_source p with
    | none => rfl
    | some super_seg =>
      dsimp only
      by_cases hin : segIn on_source super_seg = true
      · rw [if_pos hin, if_pos hin]
        rfl
      · rw [if_neg hin, if_neg hin]
        rfl

theorem C3_witness :
    (Seg.mk 100 200).lo - (Seg.mk 0 300).lo = (Seg.mk 0 300).hi - (Seg.mk 100 200).hi ∧
    offsource_counts [Seg.mk 0 1000] (Seg.mk 100 200) 0 none true
      = (offsource_counts [Seg.mk 0 1000] (Seg.mk 100 200) 0 none false).map
          (fun c => (min c.1 c.2, min c.1 c.2)) :=
  C3_symmetric_margins [Seg.mk 0 1000] (Seg.mk 100 200) (Seg.mk 0 300) 0 none none
    (by decide)

/-- C4: `compute_offsource_segment` (with a positive-length on-source
segment, so the Python code does not raise) returns `None` exactly when
either no analyzable segment contains the on-source segment, or the first
containing segment no longer contains it after contraction by
`padding_time`, or `min_trials` is given and the final total trial count
falls below it; in every other case it returns a segment. -/
theorem C4_none_iff
    (analyzable : List Seg) (on_source : Seg) (p : Int) (mn mx : Option Int)
    (symmetric : Bool) (_hq : 0 < segAbs on_source) :
    compute_offsource_segment analyzable on_source p mn mx symmetric = none ↔
      ((findSeg analyzable on_source).elim True
          (fun s => segIn on_source (contract s p) = false)
       ∨ (offsource_counts analyzable on_source p mx symmetric).elim False
          (fun c => mn.elim False (fun m => c.1 + c.2 < m))) := by
  cases hfind : findSeg analyzable on_source with
  | none =>
    have hoc : offsource_counts analyzable on_source p mx symmetric = none := by
      unfold offsource_counts find_super
      rw [hfind]
      rfl
    unfold compute_offsource_segment
    rw [hoc]
    simp
  | some s =>
    have hfs : find_super analyzable on_source p = some (contract s p) := by
      unfold find_super
      rw [hfind]
      rfl
    by_cases hin : segIn on_source (contract s p) = true
    · have hoc : offsource_counts analyzable on_source p mx symmetric
          = some (sym_counts symmetric (truncate_counts mx
              (nat_nplus (contract s p) on_source)
              (nat_nminus (contract s p) on_source))) := by
        unfold offsource_counts
        rw [hfs]
        dsimp only
        rw [if_pos hin]
      unfold compute_offsource_segment
      rw [hoc]
      dsimp only [Option.elim]
      rw [hin]
      cases mn with
      | none => simp
      | some m =>
        dsimp only [Option.elim]
        by_cases hlt : (sym_counts symmetric (truncate_counts mx
            (nat_nplus (contract s p) on_source)
            (nat_nminus (contract s p) on_source))).1 +
            (sym_counts symmetric (truncate_counts mx
              (nat_nplus (contract s p) on_source)
              (nat_nminus (contract s p) on_source))).2 < m
        · simp [hlt]
        · simp [hlt]
    · have hoc : offsource_counts analyzable on_source p mx symmetric = none := by
        unfold offsource_counts
        rw [hfs]
        dsimp only
        rw [if_neg hin]
      unfold compute_offsource_segment
      rw [hoc]
      simp only [Bool.not_eq_true] at hin
      simp [hin]

theorem C4_witness :
    (compute_offsource_segment [Seg.mk 0 1000] (Seg.mk 100 200) 0 (some 20) none
        true = none ↔
      ((findSeg [Seg.mk 0 1000] (Seg.mk 100 200)).elim True
          (fun s => segIn (Seg.mk 100 200) (contract s 0) = false)
       ∨ (offsource_counts [Seg.mk 0 1000] (Seg.mk 100 200) 0 none true).elim False
          (fun c => (some (20 : Int)).elim False (fun m => c.1 + c.2 < m)))) :=
  C4_none_iff [Seg.mk 0 1000] (Seg.mk 100 200) 0 (some 20) none true (by decide)

/-- C7: on the spec's concrete example — on-source `[100,200)`,
analyzable `[[0,1000)]`, zero padding, no caps, default symmetric mode —
the natural counts are `nplus = 8` and `nminus = 1`, symmetric mode
forces both to `min 8 1 = 1`, and the returned segment is `[0,300)`. -/
theorem C7_concrete_example :
    find_super [Seg.mk 0 1000] (Seg.mk 100 200) 0 = some (Seg.mk 0 1000) ∧
    nat_nplus (Seg.mk 0 1000) (Seg.mk 100 200) = 8 ∧
    nat_nminus (Seg.mk 0 1000) (Seg.mk 100 200) = 1 ∧
    offsource_counts [Seg.mk 0 1000] (Seg.mk 100 200) 0 none true = some (1, 1) ∧
    compute_offsource_segment [Seg.mk 0 1000] (Seg.mk 100 200) 0 none none true
      = some (Seg.mk 0 300) := by decide

/-- C6, evaluating the code at a failing input: with
`analyzable = [[0,1000)]`, `on_source = [100,200)`, no vetoes and
`quantization_time = 100`, the off-source gaps `[0,100)` and `[200,1000)`
are replaced by `[0, 0 + 100//100) = [0,1)` and
`[200, 200 + 800//100) = [200,208)` (line 76 adds the NUMBER of quanta to
the start instead of that number times the quantization width), so the
allowed off-source gaps left by the returned mask have lengths `1` and
`8` — neither a whole multiple of the quantization width `100`, contrary
to the claim (and to the docstring's announced quantization, under which
the gaps would keep lengths `100` and `800`). -/
theorem C6_quantization_failing_input :
    compute_masked_segments [Seg.mk 0 1000] (Seg.mk 100 200) [] (some 100)
      = ([Seg.mk 0 100, Seg.mk 200 1000], [Seg.mk 1 200, Seg.mk 208 1000]) ∧
    listDiff [Seg.mk 0 1000]
        (compute_masked_segments [Seg.mk 0 1000] (Seg.mk 100 200) [] (some 100)).2
      = [Seg.mk 0 1, Seg.mk 200 208] ∧
    segAbs (Seg.mk 0 1) % 100 ≠ 0 ∧
    segAbs (Seg.mk 200 208) % 100 ≠ 0 := by decide

/-! ### `get_exttrig_trials` (grbsummary.py lines 213-252) -/

/-- `abs(segmentlist)` in glue: the sum of the segment lengths. -/
def listAbs (l : List Seg) : Int := (l.map segAbs).sum

/-- glue `segmentlist.extent()`: the segment from the smallest start to
the largest end (`segment(min, max)`, constructor re-sorting); glue
raises `ValueError` (here `none`) on an empty list. -/
def extent : List Seg → Option Seg
  | [] => none
  | s :: rest =>
    some (mkSeg (rest.foldl (fun a t => min a t.lo) s.lo)
                (rest.foldl (fun a t => max a t.hi) s.hi))

/-- Modelled from the spec: `pylal.rate.LinearBins(lo, hi, n)` — the
`rate` module belongs to pylal but is outside the sources under
verification.  Per the spec the off-source extent is partitioned into `n`
equal, contiguous, non-overlapping bins. -/
structure LinearBins where
  lo : Int
  hi : Int
  n : Nat
deriving DecidableEq

/-- Modelled from the spec: lower boundary of bin `i`, namely
`lo + i * (hi - lo) / n`, scaled by the positive bin count `n` so the
arithmetic stays in the integers: `n * lo + i * (hi - lo)`. -/
def binLoN (b : LinearBins) (i : Nat) : Int :=
  (b.n : Int) * b.lo + (i : Int) * (b.hi - b.lo)

/-- Modelled from the spec: `pylal.rate.bins_spanned(bins, segs)` — a
boolean vector with one entry per trial bin, true exactly when some
segment of `segs` overlaps that bin (all boundary comparisons scaled by
the bin count `n`). -/
def bins_spanned (b : LinearBins) (segs : List Seg) : List Bool :=
  (List.range b.n).map (fun i =>
    segs.any (fun s =>
      decide (max (binLoN b i) ((b.n : Int) * s.lo)
        < min (binLoN b (i + 1)) ((b.n : Int) * s.hi))))

/-- Elementwise `|=` of equal-length numpy boolean vectors. -/
def orMask (a b : List Bool) : List Bool := List.zipWith or a b

/-- `sum(mask)` over a numpy boolean vector. -/
def countTrue (l : List Bool) : Nat := l.count true

def trueIndicesAux : Nat → List Bool → List Nat
  | _, [] => []
  | i, b :: bs => if b then i :: trueIndicesAux (i + 1) bs else trueIndicesAux (i + 1) bs

/-- `numpy.arange(len(mask))[mask]`: the ascending indices of the true
entries. -/
def trueIndices (l : List Bool) : List Nat := trueIndicesAux 0 l

/-- The bins built on lines 229-233:
`rate.LinearBins(extent[0], extent[1], int(abs(extent)) // trial_len)`
(junk value for an empty off-source list, which `get_exttrig_trials`
turns into an error before the bins are used). -/
def trial_bins (on_segs off_segs : List Seg) : LinearBins :=
  match extent off_segs with
  | none => ⟨0, 0, 0⟩
  | some e => ⟨e.lo, e.hi, ((segAbs e).fdiv (listAbs on_segs)).toNat⟩

instance exceptDecEq {ε α : Type} [DecidableEq ε] [DecidableEq α] :
    DecidableEq (Except ε α)
  | Except.ok a, Except.ok b =>
    if h : a = b then isTrue (by rw [h])
    else isFalse (by intro hh; cases hh; exact h rfl)
  | Except.ok _, Except.error _ => isFalse (by intro h; cases h)
  | Except.error _, Except.ok _ => isFalse (by intro h; cases h)
  | Except.error e, Except.error f =>
    if h : e = f then isTrue (by rw [h])
    else isFalse (by intro hh; cases hh; exact h rfl)

/-- `get_exttrig_trials` (lines 213-252).  `Except.error` models a raised
`ValueError`; the `extent()` of an empty off-source list also raises
`ValueError` inside glue.  Veto files enter as their parsed segment lists
(`segmentsUtils.fromsegwizard` is plain file parsing in the external glue
library), and the non-fatal stderr warning about vetoes overlapping the
on-source segment does not affect the returned value and is not
modelled.  A zero-duration on-source list makes Python raise
`ZeroDivisionError`; theorems assume positive duration. -/
def get_exttrig_trials (on_segs off_segs : List Seg)
    (veto_files : List (List Seg)) :
    Except String (LinearBins × List Bool × List Nat) :=
  let trial_len := listAbs on_segs
  if listAbs off_segs % trial_len ≠ 0 then
    Except.error "The provided file's analysis segment is not divisible by the fold time."
  else
    match extent off_segs with
    | none => Except.error "empty segmentlist"
    | some _ =>
      let bins := trial_bins on_segs off_segs
      let trial_veto_mask := veto_files.foldl
        (fun m vf => orMask m (bins_spanned bins vf))
        (List.replicate bins.n false)
      let onsource_mask := bins_spanned bins on_segs
      if countTrue onsource_mask ≠ 1 then
        Except.error "on-source segment spans more or less than one trial"
      else
        Except.ok (bins, trial_veto_mask, trueIndices onsource_mask)

/-! ### Lemmas for the multi-IFO search -/

theorem sizesDesc_eq_spec_sizes : ∀ n : Nat, sizesDesc n = spec_sizes n
  | 0 => rfl
  | 1 => rfl
  | n + 2 => by
    unfold sizesDesc spec_sizes
    have h : List.range' 2 (n + 1) = List.range' 2 n ++ [2 + n] := by
      simpa using @List.range'_concat 1 2 n
    have ih : (List.range' 2 n).reverse = spec_sizes (n + 1) := by
      have := sizesDesc_eq_spec_sizes (n + 1)
      unfold sizesDesc at this
      simpa using this
    rw [show n + 2 - 1 = n + 1 from rfl, h, List.reverse_append]
    simp only [List.reverse_cons, List.reverse_nil, List.nil_append,
      List.singleton_append]
    rw [ih, Nat.add_comm 2 n]

theorem combo_loop_eq_find (nd : List (String × List Seg)) (on_source : Seg)
    (p : Int) (mn mx : Option Int) (symmetric : Bool) (l : List (List String)) :
    combo_loop nd on_source p mn mx symmetric l
      = match l.find? (fun c => (attempt_combo nd on_source p mn mx symmetric c).isSome) with
        | some c => (attempt_combo nd on_source p mn mx symmetric c, sortLex c)
        | none => (none, []) := by
  induction l with
  | nil => rfl
  | cons c rest ih =>
    cases ha : attempt_combo nd on_source p mn mx symmetric c with
    | some seg =>
      simp only [combo_loop, List.find?, ha, Option.isSome]
    | none =>
      simp only [combo_loop, List.find?, ha, Option.isSome]
      exact ih

theorem mem_insertLex (x y : String) (l : List String)
    (h : y ∈ insertLex x l) : y = x ∨ y ∈ l := by
  induction l with
  | nil => simp only [insertLex, List.mem_singleton] at h; exact Or.inl h
  | cons z zs ih =>
    unfold insertLex at h
    by_cases hc : strLtB z x = true
    · rw [if_pos hc] at h
      rcases List.mem_cons.mp h with rfl | h
      · exact Or.inr (List.mem_cons_self ..)
      · rcases ih h with h | h
        · exact Or.inl h
        · exact Or.inr (List.mem_cons_of_mem _ h)
    · rw [if_neg hc] at h
      rcases List.mem_cons.mp h with rfl | h
      · exact Or.inl rfl
      · exact Or.inr h

theorem mem_sortLex (x : String) (l : List String)
    (h : x ∈ sortLex l) : x ∈ l := by
  induction l with
  | nil => simp [sortLex] at h
  | cons z zs ih =>
    unfold sortLex at h
    rcases mem_insertLex z x (sortLex zs) h with rfl | h
    · exact List.mem_cons_self ..
    · exact List.mem_cons_of_mem _ (ih h)

theorem mem_insertBySens (x y : String) (l : List String)
    (h : y ∈ insertBySens x l) : y = x ∨ y ∈ l := by
  induction l with
  | nil => simp only [insertBySens, List.mem_singleton] at h; exact Or.inl h
  | cons z zs ih =>
    unfold insertBySens at h
    by_cases hc : sensitivity_dict z < sensitivity_dict x
    · rw [if_pos hc] at h
      rcases List.mem_cons.mp h with rfl | h
      · exact Or.inr (List.mem_cons_self ..)
      · rcases ih h with h | h
        · exact Or.inl h
        · exact Or.inr (List.mem_cons_of_mem _ h)
    · rw [if_neg hc] at h
      rcases List.mem_cons.mp h with rfl | h
      · exact Or.inl rfl
      · exact Or.inr h

theorem mem_sortBySens (x : String) (l : List String)
    (h : x ∈ sortBySens l) : x ∈ l := by
  induction l with
  | nil => simp [sortBySens] at h
  | cons z zs ih =>
    unfold sortBySens at h
    rcases mem_insertBySens z x (sortBySens zs) h with rfl | h
    · exact List.mem_cons_self ..
    · exact List.mem_cons_of_mem _ (ih h)

theorem choices_mem_subset :
    ∀ (l : List String) (n : Nat) (c : List String),
      c ∈ choices l n → ∀ x, x ∈ c → x ∈ l := by
  intro l
  induction l with
  | nil =>
    intro n c hc x hx
    cases n with
    | zero =>
      simp only [choices, List.mem_singleton] at hc
      subst hc
      simp at hx
    | succ n => simp [choices] at hc
  | cons y ys ih =>
    intro n c hc x hx
    cases n with
    | zero =>
      simp only [choices, List.mem_singleton] at hc
      subst hc
      simp at hx
    | succ n =>
      simp only [choices, List.mem_append, List.mem_map] at hc
      rcases hc with ⟨c2, hc2, rfl⟩ | hc
      · rcases List.mem_cons.mp hx with rfl | hx
        · exact List.mem_cons_self ..
        · exact List.mem_cons_of_mem _ (ih n c2 hc2 x hx)
      · exact List.mem_cons_of_mem _ (ih (n + 1) c hc x hx)

theorem test_combos_subset (ifos : List String) (c : List String)
    (hc : c ∈ test_combos ifos) (x : String) (hx : x ∈ c) : x ∈ ifos := by
  simp only [test_combos, List.mem_flatMap] at hc
  rcases hc with ⟨n, _, hc⟩
  exact choices_mem_subset ifos n c hc x hx

theorem combo_loop_mem_combos (nd : List (String × List Seg)) (on_source : Seg)
    (p : Int) (mn mx : Option Int) (symmetric : Bool) (l : List (List String))
    (ifo : String)
    (h : ifo ∈ (combo_loop nd on_source p mn mx symmetric l).2) :
    ∃ c, c ∈ l ∧ ifo ∈ c := by
  induction l with
  | nil =>
    have h2 : ifo ∈ ([] : List String) := h
    cases h2
  | cons c rest ih =>
    rw [show combo_loop nd on_source p mn mx symmetric (c :: rest)
          = (match attempt_combo nd on_source p mn mx symmetric c with
             | some seg => (some seg, sortLex c)
             | none => combo_loop nd on_source p mn mx symmetric rest) from rfl] at h
    cases ha : attempt_combo nd on_source p mn mx symmetric c with
    | some seg =>
      rw [ha] at h
      exact ⟨c, List.mem_cons_self .., mem_sortLex ifo c h⟩
    | none =>
      rw [ha] at h
      rcases ih h with ⟨c2, hc2, hifo⟩
      exact ⟨c2, List.mem_cons_of_mem _ hc2, hifo⟩

theorem sieve_dict_mem (d : List (String × List Seg)) (on_source : Seg)
    (ifo : String) (h : ifo ∈ (sieve_dict d on_source).map Prod.fst) :
    ∃ sl, (ifo, sl) ∈ d ∧ ∃ s, s ∈ sl ∧ segIn on_source s = true := by
  simp only [sieve_dict, List.mem_map, List.mem_filterMap] at h
  rcases h with ⟨q, ⟨pr, hpr, hmap⟩, hfst⟩
  cases hf : findSeg pr.2 on_source with
  | none => rw [hf] at hmap; simp at hmap
  | some s =>
    rw [hf] at hmap
    have hq : (pr.1, [s]) = q := Option.some_inj.mp hmap
    refine ⟨pr.2, ?_, s, List.mem_of_find?_eq_some hf, List.find?_some hf⟩
    have hifo : pr.1 = ifo := by rw [← hfst, ← hq]
    rw [← hifo]
    exact hpr

/-! ### Claim theorems for the multi-IFO search -/

/-- C5: the transcription of `multi_ifo_compute_offsource_segment`
coincides, for all inputs, with the spec's formulation: enumerate
detector-subset sizes from the number of analyzable detectors down to 2
(single-detector combinations excluded), within each size in the fixed
sensitivity-ranking order; return the first combination whose restricted
intersection admits an off-source segment, with the combination sorted
for determinism, and `(none, [])` when no subset of any size ≥ 2
succeeds. -/
theorem C5_multi_ifo_matches_spec (d : List (String × List Seg)) (on_source : Seg)
    (p : Int) (mn mx : Option Int) (symmetric : Bool) :
    multi_ifo_compute_offsource_segment d on_source p mn mx symmetric
      = spec_multi_ifo d on_source p mn mx symmetric := by
  unfold multi_ifo_compute_offsource_segment spec_multi_ifo test_combos
  dsimp only
  rw [sizesDesc_eq_spec_sizes]
  exact combo_loop_eq_find _ _ _ _ _ _ _

/-- C10: a detector appearing in the returned combination — or indeed in
any combination the search enumerates — has, in its input segment list,
a segment containing the on-source segment; detectors without one are
dropped by the sieve before subsets are formed. -/
theorem C10_combo_members_have_containing_segment
    (d : List (String × List Seg)) (on_source : Seg) (p : Int)
    (mn mx : Option Int) (symmetric : Bool) (ifo : String)
    (h : ifo ∈ (multi_ifo_compute_offsource_segment d on_source p mn mx symmetric).2
         ∨ ∃ c, c ∈ test_combos (sortBySens ((sieve_dict d on_source).map Prod.fst))
                ∧ ifo ∈ c) :
    ∃ sl, (ifo, sl) ∈ d ∧ ∃ s, s ∈ sl ∧ segIn on_source s = true := by
  have hmem : ifo ∈ sortBySens ((sieve_dict d on_source).map Prod.fst) := by
    rcases h with h | ⟨c, hc, hifo⟩
    · unfold multi_ifo_compute_offsource_segment at h
      rcases combo_loop_mem_combos _ _ _ _ _ _ _ _ h with ⟨c, hc, hifo⟩
      exact test_combos_subset _ c hc ifo hifo
    · exact test_combos_subset _ c hc ifo hifo
  exact sieve_dict_mem d on_source ifo (mem_sortBySens _ _ hmem)

theorem C10_witness :
    ∃ sl, ("H1", sl) ∈ [("L1", [Seg.mk 0 1000]), ("H1", [Seg.mk 0 1000])] ∧
      ∃ s, s ∈ sl ∧ segIn (Seg.mk 100 200) s = true :=
  C10_combo_members_have_containing_segment
    [("L1", [Seg.mk 0 1000]), ("H1", [Seg.mk 0 1000])] (Seg.mk 100 200)
    0 none none true "H1" (Or.inl (by decide))

/-! ### Lemmas and claim theorems for `get_exttrig_trials` -/

theorem bins_spanned_length (b : LinearBins) (segs : List Seg) :
    (bins_spanned b segs).length = b.n := by
  simp [bins_spanned]

theorem orMask_length (a c : List Bool) :
    (orMask a c).length = min a.length c.length := by
  simp [orMask]

theorem foldl_orMask_length (b : LinearBins) (vfs : List (List Seg)) :
    ∀ m : List Bool, m.length = b.n →
      (vfs.foldl (fun m vf => orMask m (bins_spanned b vf)) m).length = b.n := by
  induction vfs with
  | nil => intro m hm; exact hm
  | cons vf rest ih =>
    intro m hm
    simp only [List.foldl_cons]
    refine ih _ ?_
    rw [orMask_length, hm, bins_spanned_length]
    omega

theorem trueIndicesAux_length (l : List Bool) :
    ∀ i : Nat, (trueIndicesAux i l).length = countTrue l := by
  induction l with
  | nil => intro i; rfl
  | cons b bs ih =>
    intro i
    cases b with
    | false => simp [trueIndicesAux, countTrue, List.count_cons, ih (i + 1)]
    | true =>
      simp only [trueIndicesAux, if_true, List.length_cons, ih (i + 1)]
      simp [countTrue, List.count_cons]

theorem trueIndices_length (l : List Bool) :
    (trueIndices l).length = countTrue l :=
  trueIndicesAux_length l 0

/-- C8: whenever the total off-source duration is not an exact integer
multiple of the (positive) total on-source duration, `get_exttrig_trials`
raises `ValueError` with the length-mismatch message — a hard failure
surfaced to the caller, not a soft warning. -/
theorem C8_nondivisible_duration_fails
    (on_segs off_segs : List Seg) (veto_files : List (List Seg))
    (_h0 : 0 < listAbs on_segs)
    (hnd : listAbs off_segs % listAbs on_segs ≠ 0) :
    get_exttrig_trials on_segs off_segs veto_files
      = Except.error
          "The provided file's analysis segment is not divisible by the fold time." := by
  unfold get_exttrig_trials
  dsimp only
  rw [if_pos hnd]

theorem C8_witness :
    get_exttrig_trials [Seg.mk 0 100] [Seg.mk 0 250] []
      = Except.error
          "The provided file's analysis segment is not divisible by the fold time." :=
  C8_nondivisible_duration_fails [Seg.mk 0 100] [Seg.mk 0 250] [] (by decide)
    (by decide)

/-- C9: on every successful return of `get_exttrig_trials` (with a
positive total on-source duration), the bins are the trial bins of the
off-source extent (so their count is the extent length divided by the
on-source width), the veto mask has exactly one entry per trial bin, the
on-source segment spans exactly one bin, and the returned on-source index
vector selects exactly that one bin; moreover the call succeeds exactly
when the durations divide, the off-source list is nonempty, and the
on-source segment spans exactly one bin — otherwise a `ValueError` is
raised. -/
theorem C9_veto_mask_and_onsource_bin
    (on_segs off_segs : List Seg) (veto_files : List (List Seg))
    (_h0 : 0 < listAbs on_segs) :
    (match get_exttrig_trials on_segs off_segs veto_files with
     | Except.ok r =>
         r.1 = trial_bins on_segs off_segs ∧
         r.2.1.length = r.1.n ∧
         countTrue (bins_spanned r.1 on_segs) = 1 ∧
         r.2.2 = trueIndices (bins_spanned r.1 on_segs) ∧
         r.2.2.length = 1
     | Except.error _ => True) ∧
    ((get_exttrig_trials on_segs off_segs veto_files).toOption.isSome = true ↔
      (listAbs off_segs % listAbs on_segs = 0 ∧ off_segs ≠ [] ∧
       countTrue (bins_spanned (trial_bins on_segs off_segs) on_segs) = 1)) := by
  unfold get_exttrig_trials
  dsimp only
  by_cases hdiv : listAbs off_segs % listAbs on_segs ≠ 0
  · rw [if_pos hdiv]
    exact ⟨trivial, by simp [Except.toOption, hdiv]⟩
  · rw [if_neg hdiv]
    push_neg at hdiv
    cases hext : extent off_segs with
    | none =>
      have hemp : off_segs = [] := by
        cases off_segs with
        | nil => rfl
        | cons a as => simp [extent] at hext
      exact ⟨trivial, by simp [Except.toOption, hemp]⟩
    | some e =>
      have hne : off_segs ≠ [] := by
        intro h
        rw [h] at hext
        simp [extent] at hext
      by_cases hcnt : countTrue (bins_spanned (trial_bins on_segs off_segs) on_segs) ≠ 1
      · rw [if_pos hcnt]
        exact ⟨trivial, by simp [Except.toOption, hcnt]⟩
      · rw [if_neg hcnt]
        push_neg at hcnt
        constructor
        · refine ⟨rfl, ?_, hcnt, rfl, ?_⟩
          · exact foldl_orMask_length _ veto_files _ (List.length_replicate ..)
          · rw [trueIndices_length, hcnt]
        · simp [Except.toOption, hdiv, hne, hcnt]

theorem C9_witness :
    (match get_exttrig_trials [Seg.mk 0 100] [Seg.mk 0 500] [[Seg.mk 150 250]] with
     | Except.ok r =>
         r.1 = trial_bins [Seg.mk 0 100] [Seg.mk 0 500] ∧
         r.2.1.length = r.1.n ∧
         countTrue (bins_spanned r.1 [Seg.mk 0 100]) = 1 ∧
         r.2.2 = trueIndices (bins_spanned r.1 [Seg.mk 0 100]) ∧
         r.2.2.length = 1
     | Except.error _ => True) ∧
    ((get_exttrig_trials [Seg.mk 0 100] [Seg.mk 0 500] [[Seg.mk 150 250]]).toOption.isSome = true ↔
      (listAbs [Seg.mk 0 500] % listAbs [Seg.mk 0 100] = 0 ∧
       ([Seg.mk 0 500] : List Seg) ≠ [] ∧
       countTrue (bins_spanned (trial_bins [Seg.mk 0 100] [Seg.mk 0 500]) [Seg.mk 0 100]) = 1)) :=
  C9_veto_mask_and_onsource_bin [Seg.mk 0 100] [Seg.mk 0 500] [[Seg.mk 150 250]]
    (by decide)

end GRB
